import Mathlib

/-!
# Verification of the maziq provisioning tool

A shallow embedding of the maziq repository: the Bubbletea TUI model from
`cmd/maziq/main.go`, and the dependency-aware execution core (resolver,
status detector, execution engine, orchestrator) modelled from the
specification, since the Go port of that core is not yet present in the
tree (only its design documents and interface declarations are).

Layout: all definitions first, then the theorems about them.
-/

namespace Maziq

/-! ## TUI model, embedded from cmd/maziq/main.go -/

/-- A Bubbletea command returned by `Update`; the only one the program
uses is `tea.Quit`. -/
inductive TuiCmd where
  | quit
deriving Repr, DecidableEq

/-- The `model` struct of cmd/maziq/main.go (lines 73-79). Go `int`
fields are embedded as `Int`. -/
structure Model where
  width : Int
  height : Int
  selectedMenu : Int
  menuItems : List String
  ready : Bool
deriving Repr, DecidableEq

/-- `initialModel` (main.go lines 81-91): unset Go fields are zero-valued. -/
def initialModel : Model :=
  { width := 0
    height := 0
    selectedMenu := 0
    menuItems := ["Software Catalog", "Templates", "E2E Testing", "Configuration"]
    ready := true }

/-- The messages `Update` distinguishes: window resizes, key presses
(identified by their `msg.String()` form), and any other message, which
the type switch lets fall through unchanged. -/
inductive Msg where
  | windowSize (width height : Int)
  | key (s : String)
  | other
deriving Repr, DecidableEq

/-- `model.Update` (main.go lines 97-124), embedded as a pure function
returning the new model and the command (`tea.Quit` or `nil`). -/
def Model.update (m : Model) (msg : Msg) : Model × Option TuiCmd :=
  match msg with
  | .windowSize w h => ({ m with width := w, height := h }, none)
  | .key s =>
      if s = "ctrl+c" ∨ s = "q" then
        (m, some .quit)
      else if s = "up" ∨ s = "k" then
        (if m.selectedMenu > 0 then { m with selectedMenu := m.selectedMenu - 1 } else m, none)
      else if s = "down" ∨ s = "j" then
        (if m.selectedMenu < (m.menuItems.length : Int) - 1 then
          { m with selectedMenu := m.selectedMenu + 1 }
         else m, none)
      else
        (m, none)
  | .other => (m, none)

/-- Fold a sequence of messages through `Update`, keeping the model. -/
def applyMsgs (m : Model) (msgs : List Msg) : Model :=
  msgs.foldl (fun acc msg => (acc.update msg).1) m

/-- The ASCII-art logo rendered by `View` (main.go lines 134-140). -/
def logoText : String :=
" ███╗   ███╗ █████╗ ███████╗██╗ ██████╗\n ████╗ ████║██╔══██╗╚══███╔╝██║██╔═══██╗\n ██╔████╔██║███████║  ███╔╝ ██║██║   ██║\n ██║╚██╔╝██║██╔══██║ ███╔╝  ██║██║▄▄ ██║\n ██║ ╚═╝ ██║██║  ██║███████╗██║╚██████╔╝\n ╚═╝     ╚═╝╚═╝  ╚═╝╚══════╝╚═╝ ╚══▀▀═╝ "

/-- The external lipgloss styling library, modelled at the level the
claims observe: a style's `Render` keeps its content, vertical joins
interleave newlines, and `Place` positions without changing content. -/
def lipglossRender (s : String) : String := s

/-- Modelled `lipgloss.JoinVertical`. -/
def lipglossJoinVertical (sections : List String) : String :=
  String.intercalate "\n" sections

/-- Modelled `lipgloss.Place`. -/
def lipglossPlace (w h : Int) (content : String) : String :=
  content

/-- `model.View` (main.go lines 126-192). A zero width returns the
literal loading message before anything is rendered; otherwise the
header, status box, menu and help sections are built and joined. -/
def Model.view (m : Model) : String :=
  if m.width = 0 then
    "Loading..."
  else
    let logo := lipglossRender logoText
    let subtitle := lipglossRender "macOS Provisioning & Automation Tool"
    let header := lipglossJoinVertical [logo, subtitle]
    let status := if m.ready then lipglossRender "● Ready" else lipglossRender "● Not Ready"
    let statusBox := lipglossRender status
    let menuLines := m.menuItems.enum.map (fun p =>
      if (p.1 : Int) = m.selectedMenu then lipglossRender ("❯ " ++ p.2)
      else lipglossRender ("  " ++ p.2))
    let menu := String.intercalate "\n" menuLines
    let menuBox := lipglossRender menu
    let help := lipglossRender "↑/↓ or j/k: Navigate • Enter: Select • q: Quit"
    let content := lipglossJoinVertical [header, statusBox, menuBox, help]
    lipglossPlace m.width m.height content

/-! ## Core data model

Modelled from the spec (§3): the Go port of the core under `internal/`
is not yet present in the tree; the definitions below follow the spec's
data model and the interface declarations in the migration plan. -/

/-- Installer kinds (spec §3, §9). -/
inductive InstallerKind where
  | systemPackage
  | systemCask
  | languagePackage
  | directDownload
  | script
deriving Repr, DecidableEq

/-- Version-detection method descriptor (spec §4.2). -/
inductive DetectMethod where
  | bundle (path : String)
  | command (cmd : String) (pattern : String)
  | packageManager (pkgName : String)
  | fallbackSearch (appName : String)
deriving Repr, DecidableEq

/-- Modelled from the spec: a Software catalog entry (spec §3) — id,
display name, installer kind, version-detection method, dependency ids
and per-action command templates. -/
structure Software where
  id : String
  name : String
  installer : InstallerKind
  detect : DetectMethod
  deps : List String
  installCmd : String
  updateCmd : String
  uninstallCmd : String
deriving Repr, DecidableEq

/-- Enumerated status states (spec §3). -/
inductive StatusState where
  | notInstalled
  | outdated
  | upToDate
  | unknown
deriving Repr, DecidableEq

/-- The Status record (spec §3). -/
structure Status where
  installed : Bool
  version : Option String
  state : StatusState
deriving Repr, DecidableEq

/-- Actions the engine can execute (spec §4.3). -/
inductive Action where
  | install
  | update
  | uninstall
deriving Repr, DecidableEq

/-- Task outcomes (spec §4.3). -/
inductive TaskOutcome where
  | succeeded (version : Option String)
  | failed (exitCode : Int) (diagnostic : String)
  | skipped (reason : String)
deriving Repr, DecidableEq

/-- HistoryRecord (spec §3): append-only, emitted by the core. -/
structure HistoryRecord where
  softwareId : String
  action : String
  version : Option String
  source : String
  timestamp : Nat
deriving Repr, DecidableEq

/-- Observable side effects of the execution engine: invocations of the
process-execution facility, streamed output lines, and history-sink
emissions (spec §4.3, §6). -/
inductive Effect where
  | spawn (cmd : String)
  | outputLine (line : String)
  | history (r : HistoryRecord)
deriving Repr, DecidableEq

/-- Modelled from the spec: the host environment the core drives — the
process-execution facility (`run` returns `none` when a command is
absent/cannot be spawned, otherwise its exit code and output lines), the
OS application-metadata store, the package manager's installed-version
listing, the system-wide metadata search, and a clock. -/
structure Host where
  run : String → Option (Int × List String)
  bundleVersion : String → Option String
  pkgVersion : String → Option String
  searchVersion : String → Option String
  now : Nat

/-! ## Status Detector (spec §4.2) -/

/-- Classify a detected version against the externally supplied latest
known version: no comparison target ⇒ UpToDate by default (spec §4.2). -/
def classifyVersion (latest : Option String) (v : String) : StatusState :=
  match latest with
  | none => .upToDate
  | some l => if v = l then .upToDate else .outdated

/-- Parse a version from the first output line with a per-tool pattern,
modelled as stripping a fixed leading pattern (spec §4.2): no lines or a
non-matching first line parse to nothing. -/
def parseFirstLine (pattern : String) (out : List String) : Option String :=
  match out with
  | [] => none
  | line :: _ => if pattern.isPrefixOf line then some (line.drop pattern.length) else none

/-- Modelled from the spec: `DetectStatus` (spec §4.2) — strategy
dispatch on the version-detection method; a total function into
`Status`, so classification failures degrade to NotInstalled/Unknown
rather than erroring. -/
def DetectStatus (host : Host) (latest : String → Option String) (sw : Software) : Status :=
  match sw.detect with
  | .bundle path =>
      match host.bundleVersion path with
      | none => ⟨false, none, .notInstalled⟩
      | some v => ⟨true, some v, classifyVersion (latest sw.id) v⟩
  | .command cmd pattern =>
      match host.run cmd with
      | none => ⟨false, none, .notInstalled⟩
      | some (_, out) =>
          match parseFirstLine pattern out with
          | none => ⟨true, none, .unknown⟩
          | some v => ⟨true, some v, classifyVersion (latest sw.id) v⟩
  | .packageManager pkgName =>
      match host.pkgVersion pkgName with
      | none => ⟨false, none, .notInstalled⟩
      | some v => ⟨true, some v, classifyVersion (latest sw.id) v⟩
  | .fallbackSearch appName =>
      match host.searchVersion appName with
      | none => ⟨false, none, .notInstalled⟩
      | some v => ⟨true, some v, classifyVersion (latest sw.id) v⟩

/-! ## Adapter Execution Engine (spec §4.3) -/

/-- The action's command template for the software (spec §4.3). -/
def commandFor (sw : Software) : Action → String
  | .install => sw.installCmd
  | .update => sw.updateCmd
  | .uninstall => sw.uninstallCmd

/-- Printable action name used in history records. -/
def actionName : Action → String
  | .install => "install"
  | .update => "update"
  | .uninstall => "uninstall"

/-- Printable installer-kind name used as the history source field. -/
def installerName : InstallerKind → String
  | .systemPackage => "system-package"
  | .systemCask => "system-cask"
  | .languagePackage => "language-package"
  | .directDownload => "direct-download"
  | .script => "script"

/-- The last five captured output lines, used as the failure diagnostic
(spec §4.3: "the last N lines of captured output"). -/
def diagnosticOf (out : List String) : String :=
  String.intercalate "\n" (out.drop (out.length - 5))

/-- Modelled from the spec: `Execute` (spec §4.3). Dry-run emits the
would-run command and returns Skipped("dry-run") without spawning; a
live uninstall of already-absent software is an idempotent no-op
returning Succeeded; otherwise the external process runs and the exit
code is classified, with a history record emitted on success. -/
def Execute (host : Host) (latest : String → Option String) (sw : Software)
    (action : Action) (dryRun : Bool) : TaskOutcome × List Effect :=
  let cmd := commandFor sw action
  if dryRun then
    (.skipped "dry-run", [.outputLine cmd])
  else if action = .uninstall ∧ (DetectStatus host latest sw).state = .notInstalled then
    (.succeeded none, [])
  else
    match host.run cmd with
    | none => (.failed 127 "spawn failure", [.spawn cmd])
    | some (code, out) =>
        if code = 0 then
          let st := DetectStatus host latest sw
          (.succeeded st.version,
            .spawn cmd :: out.map .outputLine
              ++ [.history ⟨sw.id, actionName action, st.version,
                    installerName sw.installer, host.now⟩])
        else
          (.failed code (diagnosticOf out), .spawn cmd :: out.map .outputLine)

/-! ## Dependency Resolver (spec §4.1)

Modelled from the spec: `Resolve` expands the requested ids into their
transitive dependency closure and topologically sorts it with Kahn's
algorithm, tie-breaking among simultaneously-ready nodes by ascending
lexical order of identifier. -/

/-- Catalog Registry lookup (spec §2: pure lookup structure). -/
def findSoftware (c : List Software) (i : String) : Option Software :=
  c.find? (fun sw => sw.id = i)

/-- All identifiers of the catalog. -/
def catalogIds (c : List Software) : List String :=
  c.map Software.id

/-- The dependency relation: `i` depends directly on `j`. -/
def DepEdge (c : List Software) (i j : String) : Prop :=
  ∃ sw, findSoftware c i = some sw ∧ j ∈ sw.deps

/-- Reflexive-transitive reachability over the dependency relation. -/
def Reaches (c : List Software) : String → String → Prop :=
  Relation.ReflTransGen (DepEdge c)

/-- `j` is a transitive dependency of the requested set (the requested
ids themselves included). -/
def ReachedFrom (c : List Software) (requested : List String) (j : String) : Prop :=
  ∃ i ∈ requested, Reaches c i j

/-- `i` lies on a dependency cycle. -/
def OnCycle (c : List Software) (i : String) : Prop :=
  Relation.TransGen (DepEdge c) i i

/-- Resolution failure modes (spec §4.1, §7). -/
inductive ResolutionError where
  | missingDependency (id : String)
  | dependencyCycle (ids : List String)
deriving Repr, DecidableEq

/-- An id found in the catalog is one of the catalog's ids. -/
theorem mem_catalogIds_of_findSoftware {c : List Software} {i : String} {sw : Software}
    (hfind : findSoftware c i = some sw) : i ∈ catalogIds c := by
  have hsw := List.find?_some hfind
  have hswmem := List.mem_of_find?_eq_some hfind
  simp only [decide_eq_true_eq] at hsw
  exact hsw ▸ List.mem_map_of_mem Software.id hswmem

/-- Collecting a catalog id not yet collected shrinks the set of
uncollected catalog ids: the termination measure of the closure
worklist. -/
theorem closure_measure_lt {c : List Software} {acc : List String} {i : String} {sw : Software}
    (hi : i ∉ acc) (hfind : findSoftware c i = some sw) :
    ((catalogIds c).toFinset \ (acc ++ [i]).toFinset).card
      < ((catalogIds c).toFinset \ acc.toFinset).card := by
  apply Finset.card_lt_card
  have hsub : (catalogIds c).toFinset \ (acc ++ [i]).toFinset ⊆
      (catalogIds c).toFinset \ acc.toFinset := by
    apply Finset.sdiff_subset_sdiff (Finset.Subset.refl _)
    intro x hx
    simp only [List.toFinset_append, Finset.mem_union]
    exact Or.inl hx
  rw [Finset.ssubset_iff_of_subset hsub]
  refine ⟨i, ?_, ?_⟩
  · simp only [Finset.mem_sdiff, List.mem_toFinset]
    exact ⟨mem_catalogIds_of_findSoftware hfind, hi⟩
  · simp

/-- Worklist computation of the transitive closure: pop an id; ids
already collected are skipped, ids absent from the catalog abort with
the missing id, known ids are appended and their dependencies enqueued. -/
def closureAux (c : List Software) (work acc : List String) :
    Except String (List String) :=
  match work with
  | [] => .ok acc
  | i :: rest =>
      if hi : i ∈ acc then
        closureAux c rest acc
      else
        match hfind : findSoftware c i with
        | none => .error i
        | some sw => closureAux c (sw.deps ++ rest) (acc ++ [i])
termination_by (((catalogIds c).toFinset \ acc.toFinset).card, work.length)
decreasing_by
  · exact Prod.Lex.right _ (by simp)
  · exact Prod.Lex.left _ _ (closure_measure_lt hi hfind)

/-- The transitive dependency closure of the requested ids (spec §4.1),
or the first missing dependency encountered. -/
def computeClosure (c : List Software) (requested : List String) :
    Except String (List String) :=
  closureAux c requested []

/-- A node is ready when none of its declared dependencies is still
unemitted — in-degree zero within the closure (spec §4.1). -/
def isReady (c : List Software) (remaining : List String) (i : String) : Bool :=
  match findSoftware c i with
  | none => true
  | some sw => sw.deps.all (fun j => decide (j ∉ remaining))

/-- Kahn's algorithm: repeatedly emit the lexically smallest ready node
until none is ready; returns the emitted order and whatever remains
(nonempty leftovers witness a cycle). -/
def kahnAux (c : List Software) (acc remaining : List String) :
    List String × List String :=
  match hm : (remaining.filter (fun i => isReady c remaining i)).min? with
  | none => (acc.reverse, remaining)
  | some i => kahnAux c (i :: acc) (remaining.erase i)
termination_by remaining.length
decreasing_by
  have hmem : i ∈ remaining :=
    (List.mem_filter.mp (List.min?_mem (fun a b => min_choice a b) hm)).1
  have := List.length_erase_of_mem hmem
  have : 0 < remaining.length := List.length_pos.mpr (List.ne_nil_of_mem hmem)
  omega

/-- Modelled from the spec: `Resolve` (spec §4.1) — transitive closure,
then topological order; a dependency id absent from the catalog yields
MissingDependency, leftovers with nonzero in-degree yield
DependencyCycle. Pure: it never executes anything. -/
def Resolve (c : List Software) (requested : List String) :
    Except ResolutionError (List String) :=
  match computeClosure c requested with
  | .error i => .error (.missingDependency i)
  | .ok cl =>
      match kahnAux c [] cl with
      | (order, []) => .ok order
      | (_, remaining) => .error (.dependencyCycle remaining)

/-- Catalog well-formedness (spec §3 invariant): every id referenced as
a dependency exists in the Catalog Registry. -/
def DepsPresent (c : List Software) : Prop :=
  ∀ sw ∈ c, ∀ j ∈ sw.deps, (findSoftware c j).isSome = true

/-- Every requested id exists in the Catalog Registry. -/
def RequestedPresent (c : List Software) (requested : List String) : Prop :=
  ∀ i ∈ requested, (findSoftware c i).isSome = true

/-- A concrete acyclic catalog used as a witness input: a depends on b,
b depends on c. -/
def chainCatalog : List Software :=
  [⟨"a", "A", .languagePackage, .command "a --version" "a ", ["b"],
      "install a", "update a", "remove a"⟩,
   ⟨"b", "B", .languagePackage, .command "b --version" "b ", ["c"],
      "install b", "update b", "remove b"⟩,
   ⟨"c", "C", .systemPackage, .command "c --version" "c ", [],
      "install c", "update c", "remove c"⟩]

/-- A concrete catalog used as a witness input: a and b depend on each
other, forming a cycle. -/
def cycleCatalog : List Software :=
  [⟨"a", "A", .script, .command "a" "a", ["b"], "ia", "ua", "ra"⟩,
   ⟨"b", "B", .script, .command "b" "b", ["a"], "ib", "ub", "rb"⟩]

/-- A concrete catalog used as a witness input: y depends on x. -/
def cascadeCatalog : List Software :=
  [⟨"x", "X", .script, .command "x" "x", [], "ix", "ux", "rx"⟩,
   ⟨"y", "Y", .script, .command "y" "y", ["x"], "iy", "uy", "ry"⟩]

/-! ## Task Orchestrator (spec §4.4)

Modelled from the spec: tasks are processed in the resolved order; a
task runs only when every dependency task within the current run has
Succeeded, and a task whose dependency reached a non-Succeeded terminal
state is marked Skipped("dependency failed") without ever running. The
model processes the order sequentially; `execOutcome` abstracts what a
task does when actually run (true = Succeeded, false = Failed). -/

/-- Task state machine values (spec §3). -/
inductive TaskState where
  | pending
  | running
  | succeeded
  | failed
  | skipped (reason : String)
  | cancelled
deriving Repr, DecidableEq

/-- Look up a task's recorded state in the run's state table. -/
def stateOf (tbl : List (String × TaskState)) (i : String) : Option TaskState :=
  (tbl.find? (fun p => p.1 = i)).map Prod.snd

/-- A dependency gates its dependents unless it Succeeded; a dependency
with no task in the current run does not gate (spec §4.4). -/
def depSucceeded (tbl : List (String × TaskState)) (j : String) : Bool :=
  match tbl.find? (fun p => p.1 = j) with
  | none => true
  | some p => p.2 = .succeeded

/-- Process one task: run it if every declared dependency's task
Succeeded (recording Succeeded/Failed and the fact that it ran),
otherwise mark it Skipped("dependency failed") without running it. -/
def runStep (c : List Software) (execOutcome : String → Bool)
    (st : List (String × TaskState) × List String) (i : String) :
    List (String × TaskState) × List String :=
  if (((findSoftware c i).map Software.deps).getD []).all (fun j => depSucceeded st.1 j) then
    (st.1 ++ [(i, if execOutcome i then .succeeded else .failed)], st.2 ++ [i])
  else
    (st.1 ++ [(i, .skipped "dependency failed")], st.2)

/-- Process the whole resolved order, returning the final task state
table and the list of tasks that were actually run. -/
def runTasks (c : List Software) (execOutcome : String → Bool)
    (order : List String) : List (String × TaskState) × List String :=
  order.foldl (runStep c execOutcome) ([], [])

/-- Modelled from the spec: a whole run (spec §6, §7) — resolution
errors are fatal, reported with a nonzero exit before any task starts;
otherwise the resolved order is orchestrated and the exit status
reflects whether any task Failed. Returns the exit code and the list of
tasks that were actually run. -/
def RunAll (c : List Software) (execOutcome : String → Bool)
    (requested : List String) : Int × List String :=
  match Resolve c requested with
  | .error _ => (1, [])
  | .ok order =>
      let r := runTasks c execOutcome order
      (if r.1.any (fun p => decide (p.2 = .failed)) then 1 else 0, r.2)

/-! ## Bounded worker pool (spec §4.4, §5)

Modelled from the spec: dispatch and completion of the worker pool as a
transition system; a ready task may be dispatched only while the global
`maxParallel` cap and the per-installer-kind cap both have headroom. -/

/-- Run-level configuration (spec §6). -/
structure RunConfig where
  dryRun : Bool
  maxParallel : Nat
  kindCap : InstallerKind → Nat

/-- Scheduler state: the tasks currently dispatched to workers and the
tasks already terminated. -/
structure SchedState where
  running : List String
  done : List String
deriving Repr, DecidableEq

/-- Before the run starts nothing is dispatched. -/
def initialSched : SchedState :=
  ⟨[], []⟩

/-- The installer kind of an id (script for ids absent from the catalog). -/
def kindOf (c : List Software) (i : String) : InstallerKind :=
  ((findSoftware c i).map Software.installer).getD .script

/-- How many currently dispatched tasks use installer kind `k`. -/
def runningOfKind (c : List Software) (running : List String) (k : InstallerKind) : Nat :=
  (running.filter (fun i => decide (kindOf c i = k))).length

/-- One scheduler transition: dispatch a ready task while both caps have
headroom, or retire a running task (spec §4.4, §5). -/
inductive SchedStep (c : List Software) (cfg : RunConfig) : SchedState → SchedState → Prop
  | dispatch (s : SchedState) (i : String)
      (hready : ∀ sw, findSoftware c i = some sw → ∀ j ∈ sw.deps, j ∈ s.done)
      (hcap : s.running.length < cfg.maxParallel)
      (hkind : runningOfKind c s.running (kindOf c i) < cfg.kindCap (kindOf c i)) :
      SchedStep c cfg s ⟨i :: s.running, s.done⟩
  | finish (s : SchedState) (i : String) (hmem : i ∈ s.running) :
      SchedStep c cfg s ⟨s.running.erase i, i :: s.done⟩

/-- The states a run can be in: everything reachable from the initial
scheduler state. -/
def SchedReachable (c : List Software) (cfg : RunConfig) (s : SchedState) : Prop :=
  Relation.ReflTransGen (SchedStep c cfg) initialSched s

/-! ## Theorems: TUI (claims about cmd/maziq/main.go) -/

/-- `Update` never touches the `menuItems` field. -/
theorem update_fst_menuItems (m : Model) (msg : Msg) :
    ((m.update msg).1).menuItems = m.menuItems := by
  cases msg with
  | windowSize w h => rfl
  | other => rfl
  | key s =>
      simp only [Model.update]
      split_ifs <;> rfl

/-- `Update` never touches the `ready` flag. -/
theorem update_fst_ready (m : Model) (msg : Msg) :
    ((m.update msg).1).ready = m.ready := by
  cases msg with
  | windowSize w h => rfl
  | other => rfl
  | key s =>
      simp only [Model.update]
      split_ifs <;> rfl

/-- One `Update` step preserves the selected-menu bounds. -/
theorem update_selectedMenu_bounds (m : Model) (msg : Msg)
    (h1 : 0 ≤ m.selectedMenu) (h2 : m.selectedMenu < (m.menuItems.length : Int)) :
    0 ≤ ((m.update msg).1).selectedMenu ∧
      ((m.update msg).1).selectedMenu < (((m.update msg).1).menuItems.length : Int) := by
  cases msg with
  | windowSize w h => exact ⟨h1, h2⟩
  | other => exact ⟨h1, h2⟩
  | key s =>
      simp only [Model.update]
      split_ifs with hq hup hpos hdown hlt <;> simp only [] <;> constructor <;> omega

/-- The selected-menu bounds are preserved by any message sequence. -/
theorem applyMsgs_selectedMenu_bounds (m : Model) (msgs : List Msg)
    (h1 : 0 ≤ m.selectedMenu) (h2 : m.selectedMenu < (m.menuItems.length : Int)) :
    0 ≤ (applyMsgs m msgs).selectedMenu ∧
      (applyMsgs m msgs).selectedMenu < ((applyMsgs m msgs).menuItems.length : Int) := by
  induction msgs generalizing m with
  | nil => exact ⟨h1, h2⟩
  | cons msg rest ih =>
      have hstep := update_selectedMenu_bounds m msg h1 h2
      exact ih ((m.update msg).1) hstep.1 hstep.2

/-- C8: starting from `initialModel`, after any sequence of messages the
selected-menu index stays within `0` to `len(menuItems) - 1` inclusive:
the up/k and down/j handlers move it only inside those bounds. -/
theorem selectedMenu_stays_in_bounds (msgs : List Msg) :
    0 ≤ (applyMsgs initialModel msgs).selectedMenu ∧
      (applyMsgs initialModel msgs).selectedMenu ≤
        ((applyMsgs initialModel msgs).menuItems.length : Int) - 1 := by
  have h := applyMsgs_selectedMenu_bounds initialModel msgs (by decide) (by decide)
  exact ⟨h.1, by omega⟩

/-- C9: `Update` leaves `menuItems` and `ready` unchanged for every
message; only `width`, `height` and `selectedMenu` can differ between
the input model and the returned model. -/
theorem update_preserves_menu_and_ready (m : Model) (msg : Msg) :
    ((m.update msg).1).menuItems = m.menuItems ∧ ((m.update msg).1).ready = m.ready :=
  ⟨update_fst_menuItems m msg, update_fst_ready m msg⟩

/-- C10: whenever the model's width is zero, `View` returns exactly the
string "Loading..." and renders nothing else. -/
theorem view_zero_width_loading (m : Model) (h : m.width = 0) :
    m.view = "Loading..." := by
  simp [Model.view, h]

/-- Witness for C10 at the initial model, whose width is zero. -/
theorem view_zero_width_loading_witness :
    initialModel.width = 0 ∧ initialModel.view = "Loading..." :=
  ⟨rfl, view_zero_width_loading initialModel rfl⟩

/-! ## Theorems: Status Detector and Execution Engine -/

/-- C4: for every software and action, dry-run execution emits the
would-run command as output and returns Skipped("dry-run"); it never
invokes the process-execution facility and never emits a HistoryRecord. -/
theorem execute_dryRun_no_spawn_no_history (host : Host) (latest : String → Option String)
    (sw : Software) (action : Action) :
    Execute host latest sw action true =
      (.skipped "dry-run", [.outputLine (commandFor sw action)]) ∧
    ∀ e ∈ (Execute host latest sw action true).2,
      (∀ c, e ≠ .spawn c) ∧ (∀ r, e ≠ .history r) := by
  refine ⟨rfl, ?_⟩
  intro e he
  have h2 : (Execute host latest sw action true).2 = [Effect.outputLine (commandFor sw action)] := rfl
  rw [h2, List.mem_singleton] at he
  subst he
  exact ⟨fun c h => Effect.noConfusion h, fun r h => Effect.noConfusion h⟩

/-- C5: status detection never errors (DetectStatus is a total function
into Status); in particular, when a tool's version command is absent
from the host, it returns NotInstalled with no version. -/
theorem detectStatus_command_absent (host : Host) (latest : String → Option String)
    (sw : Software) (cmd pattern : String) (hdetect : sw.detect = .command cmd pattern)
    (habsent : host.run cmd = none) :
    DetectStatus host latest sw = ⟨false, none, .notInstalled⟩ := by
  simp [DetectStatus, hdetect, habsent]

/-- Witness for C5: a host with no commands at all classifies a
command-detected tool as NotInstalled. -/
theorem detectStatus_command_absent_witness :
    DetectStatus
      ⟨fun _ => none, fun _ => none, fun _ => none, fun _ => none, 0⟩
      (fun _ => none)
      ⟨"rust", "Rust", .languagePackage, .command "rustc --version" "rustc ",
        [], "i", "u", "r"⟩
      = ⟨false, none, .notInstalled⟩ :=
  detectStatus_command_absent _ _ _ "rustc --version" "rustc " rfl rfl

/-- C6: a live uninstall of software that is already absent returns
Succeeded as an idempotent no-op (and in particular never Failed). -/
theorem execute_uninstall_absent_succeeds (host : Host) (latest : String → Option String)
    (sw : Software) (habsent : (DetectStatus host latest sw).state = .notInstalled) :
    Execute host latest sw .uninstall false = (.succeeded none, []) := by
  simp [Execute, habsent]

/-- Witness for C6: uninstalling a command-detected tool on a host where
its version command is absent succeeds as a no-op. -/
theorem execute_uninstall_absent_succeeds_witness :
    Execute
      ⟨fun _ => none, fun _ => none, fun _ => none, fun _ => none, 0⟩
      (fun _ => none)
      ⟨"rust", "Rust", .languagePackage, .command "rustc --version" "rustc ",
        [], "i", "u", "r"⟩
      .uninstall false = (.succeeded none, []) :=
  execute_uninstall_absent_succeeds _ _ _ rfl

/-! ## Theorems: bounded worker pool -/

/-- C7: at every instant of a run — in every reachable scheduler state —
the number of concurrently dispatched tasks is at most the configured
`maxParallel` global cap, and for every installer kind the number of
dispatched tasks of that kind is at most its per-kind cap. -/
theorem sched_caps_never_exceeded (c : List Software) (cfg : RunConfig) (s : SchedState)
    (h : SchedReachable c cfg s) :
    s.running.length ≤ cfg.maxParallel ∧
      ∀ k, runningOfKind c s.running k ≤ cfg.kindCap k := by
  induction h with
  | refl => exact ⟨Nat.zero_le _, fun k => Nat.zero_le _⟩
  | tail hr hstep ih =>
      cases hstep with
      | dispatch i hready hcap hkind =>
          refine ⟨by simpa using hcap, fun k => ?_⟩
          by_cases hk : kindOf c i = k
          · subst hk
            simpa [runningOfKind, List.filter_cons] using hkind
          · simpa [runningOfKind, List.filter_cons, hk] using ih.2 k
      | finish i hmem =>
          rename_i s
          refine ⟨le_trans (List.Sublist.length_le (List.erase_sublist i s.running)) ih.1,
            fun k => le_trans ?_ (ih.2 k)⟩
          exact List.Sublist.length_le (List.Sublist.filter _ (List.erase_sublist i s.running))

/-- Witness for C7 at the initial state of a concrete configuration. -/
theorem sched_caps_never_exceeded_witness :
    initialSched.running.length ≤ (RunConfig.mk false 2 (fun _ => 1)).maxParallel ∧
      ∀ k, runningOfKind [] initialSched.running k ≤ (RunConfig.mk false 2 (fun _ => 1)).kindCap k :=
  sched_caps_never_exceeded [] (RunConfig.mk false 2 (fun _ => 1)) initialSched
    Relation.ReflTransGen.refl

/-! ## Theorems: Dependency Resolver -/

/-- Unpack a dependency edge into the catalog entry it comes from. -/
theorem depEdge_elim {c : List Software} {i j : String} (h : DepEdge c i j) :
    ∃ sw ∈ c, sw.id = i ∧ j ∈ sw.deps := by
  obtain ⟨sw, hfind, hj⟩ := h
  have h1 := List.mem_of_find?_eq_some hfind
  have h2 := List.find?_some hfind
  simp only [decide_eq_true_eq] at h2
  exact ⟨sw, h1, h2, hj⟩

/-- In a well-formed catalog a dependency edge leads to a present id. -/
theorem depsPresent_target {c : List Software} (hdeps : DepsPresent c) {i j : String}
    {sw : Software} (hfind : findSoftware c i = some sw) (hj : j ∈ sw.deps) :
    (findSoftware c j).isSome = true :=
  hdeps sw (List.mem_of_find?_eq_some hfind) j hj

/-- Reachability from a present id stays among present ids when the
catalog is well-formed. -/
theorem reaches_present {c : List Software} (hdeps : DepsPresent c) {i j : String}
    (hi : (findSoftware c i).isSome = true) (hr : Reaches c i j) :
    (findSoftware c j).isSome = true := by
  induction hr with
  | refl => exact hi
  | tail _ hedge ih =>
      obtain ⟨sw, hfind, hj⟩ := hedge
      exact depsPresent_target hdeps hfind hj

/-- Every transitive dependency of a present requested set is present. -/
theorem reachedFrom_present {c : List Software} {requested : List String}
    (hreq : RequestedPresent c requested) (hdeps : DepsPresent c) {j : String}
    (h : ReachedFrom c requested j) : (findSoftware c j).isSome = true := by
  obtain ⟨i, hi, hr⟩ := h
  exact reaches_present hdeps (hreq i hi) hr

/-- Unfolding equation of the closure worklist: empty worklist. -/
theorem closureAux_eq_nil {c : List Software} {acc : List String} :
    closureAux c [] acc = .ok acc := by
  rw [closureAux]

/-- Unfolding equation: an already-collected id is skipped. -/
theorem closureAux_eq_skip {c : List Software} {acc rest : List String} {i : String}
    (hi : i ∈ acc) : closureAux c (i :: rest) acc = closureAux c rest acc := by
  rw [closureAux]
  simp [hi]

/-- Unfolding equation: an id absent from the catalog aborts. -/
theorem closureAux_eq_missing {c : List Software} {acc rest : List String} {i : String}
    (hi : i ∉ acc) (hf : findSoftware c i = none) :
    closureAux c (i :: rest) acc = .error i := by
  rw [closureAux]
  simp only [hi, dite_false]
  split <;> simp_all

/-- Unfolding equation: a fresh catalog id is collected and its
dependencies are enqueued. -/
theorem closureAux_eq_push {c : List Software} {acc rest : List String} {i : String}
    {sw : Software} (hi : i ∉ acc) (hf : findSoftware c i = some sw) :
    closureAux c (i :: rest) acc = closureAux c (sw.deps ++ rest) (acc ++ [i]) := by
  rw [closureAux]
  simp only [hi, dite_false]
  split <;> simp_all

/-- Soundness of the closure: members of the output satisfy any
edge-closed property holding on the worklist and accumulator. -/
theorem closureAux_sound {c : List Software} (P : String → Prop)
    (hP : ∀ i j, P i → DepEdge c i j → P j) :
    ∀ work acc, ∀ out, closureAux c work acc = .ok out →
      (∀ w ∈ work, P w) → (∀ a ∈ acc, P a) → ∀ x ∈ out, P x := by
  intro work acc
  induction work, acc using closureAux.induct c with
  | case1 acc =>
      intro out hok hw ha
      rw [closureAux_eq_nil] at hok
      cases hok
      exact ha
  | case2 acc i rest hi ih =>
      intro out hok hw ha
      rw [closureAux_eq_skip hi] at hok
      exact ih out hok (fun w hwmem => hw w (List.mem_cons_of_mem i hwmem)) ha
  | case3 acc i rest hi hf =>
      intro out hok hw ha
      rw [closureAux_eq_missing hi hf] at hok
      cases hok
  | case4 acc i rest hi sw hf ih =>
      intro out hok hw ha
      rw [closureAux_eq_push hi hf] at hok
      have hPi : P i := hw i (List.mem_cons_self i rest)
      refine ih out hok ?_ ?_
      · intro w hwmem
        rcases List.mem_append.mp hwmem with hdep | hrest
        · exact hP i w hPi ⟨sw, hf, hdep⟩
        · exact hw w (List.mem_cons_of_mem i hrest)
      · intro a hamem
        rcases List.mem_append.mp hamem with hacc | hself
        · exact ha a hacc
        · rw [List.mem_singleton.mp hself]
          exact hPi

/-- Completeness and dependency-closedness of the closure output. -/
theorem closureAux_closed {c : List Software} :
    ∀ work acc, ∀ out, closureAux c work acc = .ok out →
      (∀ a ∈ acc, ∀ sw, findSoftware c a = some sw → ∀ j ∈ sw.deps, j ∈ acc ∨ j ∈ work) →
      (∀ a ∈ acc, a ∈ out) ∧ (∀ w ∈ work, w ∈ out) ∧
        (∀ a ∈ out, ∀ sw, findSoftware c a = some sw → ∀ j ∈ sw.deps, j ∈ out) := by
  intro work acc
  induction work, acc using closureAux.induct c with
  | case1 acc =>
      intro out hok hinv
      rw [closureAux_eq_nil] at hok
      cases hok
      refine ⟨fun a ha => ha, fun w hw => absurd hw (List.not_mem_nil w), ?_⟩
      intro a ha sw hfind j hj
      rcases hinv a ha sw hfind j hj with h | h
      · exact h
      · exact absurd h (List.not_mem_nil j)
  | case2 acc i rest hi ih =>
      intro out hok hinv
      rw [closureAux_eq_skip hi] at hok
      have hinv' : ∀ a ∈ acc, ∀ sw, findSoftware c a = some sw →
          ∀ j ∈ sw.deps, j ∈ acc ∨ j ∈ rest := by
        intro a ha sw hfind j hj
        rcases hinv a ha sw hfind j hj with h | h
        · exact Or.inl h
        · rcases List.mem_cons.mp h with rfl | h'
          · exact Or.inl hi
          · exact Or.inr h'
      obtain ⟨h1, h2, h3⟩ := ih out hok hinv'
      exact ⟨h1, fun w hw => by
        rcases List.mem_cons.mp hw with rfl | h'
        · exact h1 w hi
        · exact h2 w h', h3⟩
  | case3 acc i rest hi hf =>
      intro out hok hinv
      rw [closureAux_eq_missing hi hf] at hok
      cases hok
  | case4 acc i rest hi sw hf ih =>
      intro out hok hinv
      rw [closureAux_eq_push hi hf] at hok
      have hinv' : ∀ a ∈ acc ++ [i], ∀ sw', findSoftware c a = some sw' →
          ∀ j ∈ sw'.deps, j ∈ acc ++ [i] ∨ j ∈ sw.deps ++ rest := by
        intro a ha sw' hfind j hj
        rcases List.mem_append.mp ha with hacc | hself
        · rcases hinv a hacc sw' hfind j hj with h | h
          · exact Or.inl (List.mem_append.mpr (Or.inl h))
          · rcases List.mem_cons.mp h with rfl | h'
            · exact Or.inl (List.mem_append.mpr (Or.inr (List.mem_singleton.mpr rfl)))
            · exact Or.inr (List.mem_append.mpr (Or.inr h'))
        · rw [List.mem_singleton.mp hself] at hfind
          rw [hf] at hfind
          cases hfind
          exact Or.inr (List.mem_append.mpr (Or.inl hj))
      obtain ⟨h1, h2, h3⟩ := ih out hok hinv'
      have hiout : i ∈ out := h1 i (List.mem_append.mpr (Or.inr (List.mem_singleton.mpr rfl)))
      refine ⟨fun a ha => h1 a (List.mem_append.mpr (Or.inl ha)), ?_, h3⟩
      intro w hw
      rcases List.mem_cons.mp hw with rfl | h'
      · exact hiout
      · exact h2 w (List.mem_append.mpr (Or.inr h'))

/-- The closure output has no duplicates. -/
theorem closureAux_nodup {c : List Software} :
    ∀ work acc, ∀ out, closureAux c work acc = .ok out → acc.Nodup → out.Nodup := by
  intro work acc
  induction work, acc using closureAux.induct c with
  | case1 acc =>
      intro out hok hnd
      rw [closureAux_eq_nil] at hok
      cases hok
      exact hnd
  | case2 acc i rest hi ih =>
      intro out hok hnd
      rw [closureAux_eq_skip hi] at hok
      exact ih out hok hnd
  | case3 acc i rest hi hf =>
      intro out hok hnd
      rw [closureAux_eq_missing hi hf] at hok
      cases hok
  | case4 acc i rest hi sw hf ih =>
      intro out hok hnd
      rw [closureAux_eq_push hi hf] at hok
      refine ih out hok ?_
      simp [List.nodup_append, hnd, List.disjoint_singleton, hi]

/-- The closure computation never aborts on a well-formed catalog when
the worklist consists of present ids. -/
theorem closureAux_ok {c : List Software} (hdeps : DepsPresent c) :
    ∀ work acc, (∀ w ∈ work, (findSoftware c w).isSome = true) →
      ∃ out, closureAux c work acc = .ok out := by
  intro work acc
  induction work, acc using closureAux.induct c with
  | case1 acc =>
      intro hw
      exact ⟨acc, closureAux_eq_nil⟩
  | case2 acc i rest hi ih =>
      intro hw
      obtain ⟨out, hout⟩ := ih (fun w hwm => hw w (List.mem_cons_of_mem i hwm))
      exact ⟨out, (closureAux_eq_skip hi).trans hout⟩
  | case3 acc i rest hi hf =>
      intro hw
      have := hw i (List.mem_cons_self i rest)
      rw [hf] at this
      cases this
  | case4 acc i rest hi sw hf ih =>
      intro hw
      refine (fun h => ⟨h.choose, (closureAux_eq_push hi hf).trans h.choose_spec⟩) (ih ?_)
      intro w hwm
      rcases List.mem_append.mp hwm with hdep | hrest
      · exact depsPresent_target hdeps hf hdep
      · exact hw w (List.mem_cons_of_mem i hrest)

/-- Full characterisation of a successful closure computation: the
output is exactly the transitive dependency closure of the requested
set, without duplicates and closed under dependencies. -/
theorem computeClosure_spec {c : List Software} {requested : List String}
    (hreq : RequestedPresent c requested) (hdeps : DepsPresent c) :
    ∃ cl, computeClosure c requested = .ok cl ∧
      (∀ x, x ∈ cl ↔ ReachedFrom c requested x) ∧ cl.Nodup ∧
      (∀ a ∈ cl, ∀ sw, findSoftware c a = some sw → ∀ j ∈ sw.deps, j ∈ cl) := by
  obtain ⟨cl, hcl⟩ := closureAux_ok hdeps requested [] hreq
  obtain ⟨h1, h2, h3⟩ := closureAux_closed requested [] cl hcl
    (fun a ha => absurd ha (List.not_mem_nil a))
  refine ⟨cl, hcl, fun x => ⟨?_, ?_⟩, closureAux_nodup requested [] cl hcl List.nodup_nil, h3⟩
  · intro hx
    refine closureAux_sound (ReachedFrom c requested)
      (fun i j hi hedge => ?_) requested [] cl hcl
      (fun w hw => ⟨w, hw, Relation.ReflTransGen.refl⟩)
      (fun a ha => absurd ha (List.not_mem_nil a)) x hx
    obtain ⟨r, hr, hreach⟩ := hi
    exact ⟨r, hr, Relation.ReflTransGen.tail hreach hedge⟩
  · rintro ⟨r, hr, hreach⟩
    induction hreach with
    | refl => exact h2 r hr
    | tail hpre hedge ih =>
        obtain ⟨sw, hfind, hj⟩ := hedge
        exact h3 _ ih sw hfind _ hj

/-- Unfolding equation of Kahn's loop: no ready node stops. -/
theorem kahnAux_eq_stop {c : List Software} {acc remaining : List String}
    (hm : (remaining.filter (fun i => isReady c remaining i)).min? = none) :
    kahnAux c acc remaining = (acc.reverse, remaining) := by
  rw [kahnAux]
  split <;> simp_all

/-- Unfolding equation of Kahn's loop: the smallest ready node is emitted. -/
theorem kahnAux_eq_emit {c : List Software} {acc remaining : List String} {i : String}
    (hm : (remaining.filter (fun i => isReady c remaining i)).min? = some i) :
    kahnAux c acc remaining = kahnAux c (i :: acc) (remaining.erase i) := by
  rw [kahnAux]
  split <;> simp_all

/-- The node selected by the loop is a ready member of the remainder. -/
theorem min_ready_spec {c : List Software} {remaining : List String} {i : String}
    (hm : (remaining.filter (fun i => isReady c remaining i)).min? = some i) :
    i ∈ remaining ∧ isReady c remaining i = true := by
  have := List.mem_filter.mp (List.min?_mem (fun a b => min_choice a b) hm)
  exact this

/-- A ready node depends on nothing still in the remainder. -/
theorem not_depEdge_of_isReady {c : List Software} {remaining : List String} {i j : String}
    (hready : isReady c remaining i = true) (hj : j ∈ remaining) : ¬ DepEdge c i j := by
  rintro ⟨sw, hfind, hdep⟩
  unfold isReady at hready
  rw [hfind] at hready
  have := List.all_eq_true.mp hready j hdep
  simp only [decide_eq_true_eq] at this
  exact this hj

/-- A stuck node is not ready, so (when present in the catalog) it still
depends on something in the remainder. -/
theorem dep_in_remaining_of_not_ready {c : List Software} {remaining : List String}
    {i : String} (hnready : isReady c remaining i = false)
    (hpres : (findSoftware c i).isSome = true) :
    ∃ j ∈ remaining, DepEdge c i j := by
  obtain ⟨sw, hfind⟩ := Option.isSome_iff_exists.mp hpres
  unfold isReady at hnready
  rw [hfind] at hnready
  obtain ⟨j, hjdep, hjval⟩ := List.all_eq_false.mp hnready
  simp only [decide_eq_true_eq, not_not] at hjval
  exact ⟨j, hjval, sw, hfind, hjdep⟩

/-- Kahn's loop only permutes: output plus remainder is the emitted
prefix plus the input remainder. -/
theorem kahnAux_perm {c : List Software} :
    ∀ acc remaining, ((kahnAux c acc remaining).1 ++ (kahnAux c acc remaining).2).Perm
      (acc.reverse ++ remaining) := by
  intro acc remaining
  induction acc, remaining using kahnAux.induct c with
  | case1 acc remaining hm =>
      rw [kahnAux_eq_stop hm]
  | case2 acc remaining i hm ih =>
      rw [kahnAux_eq_emit hm]
      refine ih.trans ?_
      rw [List.reverse_cons, List.append_assoc]
      refine (List.Perm.append_left acc.reverse ?_)
      exact (List.perm_cons_erase (min_ready_spec hm).1).symm

/-- When Kahn's loop stops, nothing left is ready. -/
theorem kahnAux_snd_not_ready {c : List Software} :
    ∀ acc remaining, ∀ j ∈ (kahnAux c acc remaining).2,
      isReady c ((kahnAux c acc remaining).2) j = false := by
  intro acc remaining
  induction acc, remaining using kahnAux.induct c with
  | case1 acc remaining hm =>
      rw [kahnAux_eq_stop hm]
      intro j hj
      have hfilter := List.min?_eq_none_iff.mp hm
      have := List.filter_eq_nil_iff.mp hfilter j hj
      simpa using this
  | case2 acc remaining i hm ih =>
      rw [kahnAux_eq_emit hm]
      exact ih

/-- The emitted order never places a node before one of its
dependencies: invariant form over the accumulator. -/
theorem kahnAux_pairwise {c : List Software} :
    ∀ acc remaining,
      acc.reverse.Pairwise (fun a b => ¬ DepEdge c a b) →
      (∀ a ∈ acc, ∀ j ∈ remaining, ¬ DepEdge c a j) →
      (kahnAux c acc remaining).1.Pairwise (fun a b => ¬ DepEdge c a b) := by
  intro acc remaining
  induction acc, remaining using kahnAux.induct c with
  | case1 acc remaining hm =>
      intro hpw hcross
      rw [kahnAux_eq_stop hm]
      exact hpw
  | case2 acc remaining i hm ih =>
      intro hpw hcross
      rw [kahnAux_eq_emit hm]
      obtain ⟨hirem, hiready⟩ := min_ready_spec hm
      refine ih ?_ ?_
      · rw [List.reverse_cons]
        rw [List.pairwise_append]
        refine ⟨hpw, List.pairwise_singleton _ _, ?_⟩
        intro a ha b hb
        rw [List.mem_singleton.mp hb]
        exact hcross a (List.mem_reverse.mp ha) i hirem
      · intro a ha j hj
        have hjrem : j ∈ remaining := List.erase_subset i remaining hj
        rcases List.mem_cons.mp ha with rfl | ha'
        · exact not_depEdge_of_isReady hiready hjrem
        · exact hcross a ha' j hjrem

/-- A set of nodes each depending on another member of the set is never
emitted: it survives into the remainder. -/
theorem kahnAux_stuck_set {c : List Software} (S : Set String)
    (hstep : ∀ x ∈ S, ∃ y ∈ S, DepEdge c x y) :
    ∀ acc remaining, (∀ x ∈ S, x ∈ remaining) →
      ∀ x ∈ S, x ∈ (kahnAux c acc remaining).2 := by
  intro acc remaining
  induction acc, remaining using kahnAux.induct c with
  | case1 acc remaining hm =>
      intro hsub x hx
      rw [kahnAux_eq_stop hm]
      exact hsub x hx
  | case2 acc remaining i hm ih =>
      intro hsub x hx
      rw [kahnAux_eq_emit hm]
      obtain ⟨hirem, hiready⟩ := min_ready_spec hm
      refine ih ?_ x hx
      intro z hz
      have hzrem := hsub z hz
      have hzi : z ≠ i := by
        rintro rfl
        obtain ⟨y, hy, hedge⟩ := hstep z hz
        exact not_depEdge_of_isReady hiready (hsub y hy) hedge
      rw [List.mem_erase_of_ne hzi]
      exact hzrem

/-- A nonempty finite set of nodes, each with an outgoing dependency
edge back into the set, contains a node on a dependency cycle. -/
theorem exists_onCycle_of_forall_dep {c : List Software} {R : List String}
    (hne : R ≠ []) (hstep : ∀ i ∈ R, ∃ j ∈ R, DepEdge c i j) :
    ∃ i ∈ R, OnCycle c i := by
  classical
  obtain ⟨x0, hx0⟩ := List.exists_mem_of_ne_nil R hne
  have hT : ∀ t : {x // x ∈ R.toFinset}, ∃ y, y ∈ R ∧ DepEdge c t.1 y :=
    fun t => hstep t.1 (List.mem_toFinset.mp t.2)
  let g : {x // x ∈ R.toFinset} → {x // x ∈ R.toFinset} :=
    fun t => ⟨(hT t).choose, List.mem_toFinset.mpr (hT t).choose_spec.1⟩
  have hg : ∀ t, DepEdge c t.1 (g t).1 := fun t => (hT t).choose_spec.2
  let seq : ℕ → {x // x ∈ R.toFinset} := fun n => g^[n] ⟨x0, List.mem_toFinset.mpr hx0⟩
  have hseq : ∀ n, DepEdge c (seq n).1 (seq (n + 1)).1 := by
    intro n
    have hit : seq (n + 1) = g (seq n) := Function.iterate_succ_apply' g n _
    rw [hit]
    exact hg (seq n)
  have hchain : ∀ m n, m < n → Relation.TransGen (DepEdge c) (seq m).1 (seq n).1 := by
    intro m n hmn
    induction n, hmn using Nat.le_induction with
    | base => exact Relation.TransGen.single (hseq m)
    | succ n hmn ih => exact Relation.TransGen.tail ih (hseq n)
  obtain ⟨a, b, hab, heq⟩ := Finite.exists_ne_map_eq_of_infinite seq
  rcases hab.lt_or_lt with h | h
  · refine ⟨(seq a).1, List.mem_toFinset.mp (seq a).2, ?_⟩
    have h2 : (seq b).1 = (seq a).1 := by rw [heq]
    have h3 := hchain a b h
    rw [h2] at h3
    exact h3
  · refine ⟨(seq b).1, List.mem_toFinset.mp (seq b).2, ?_⟩
    have h2 : (seq a).1 = (seq b).1 := by rw [heq]
    have h3 := hchain b a h
    rw [h2] at h3
    exact h3

/-- A rank function strictly decreasing along dependency edges decreases
along dependency chains. -/
theorem rank_lt_of_transGen {c : List Software} (rank : String → Nat)
    (hr : ∀ i j, DepEdge c i j → rank j < rank i) {i j : String}
    (h : Relation.TransGen (DepEdge c) i j) : rank j < rank i := by
  induction h with
  | single h1 => exact hr _ _ h1
  | tail _ h1 ih => exact lt_trans (hr _ _ h1) ih

/-- A catalog admitting a rank function strictly decreasing along
dependency edges has no dependency cycle. -/
theorem not_onCycle_of_rank {c : List Software} (rank : String → Nat)
    (hr : ∀ i j, DepEdge c i j → rank j < rank i) (i : String) : ¬ OnCycle c i :=
  fun h => lt_irrefl _ (rank_lt_of_transGen rank hr h)

/-- In a duplicate-free list ordered so that no element depends on a
later one, every dependency target sits strictly earlier. -/
theorem indexOf_lt_of_pairwise_not_dep {c : List Software} {l : List String}
    (hnd : l.Nodup) (hp : l.Pairwise (fun a b => ¬ DepEdge c a b)) {i j : String}
    (hi : i ∈ l) (hj : j ∈ l) (hij : i ≠ j) (hedge : DepEdge c i j) :
    l.indexOf j < l.indexOf i := by
  have hi' := List.indexOf_lt_length.mpr hi
  have hj' := List.indexOf_lt_length.mpr hj
  rcases Nat.lt_trichotomy (l.indexOf i) (l.indexOf j) with h | h | h
  · exfalso
    have hpg := List.pairwise_iff_get.mp hp ⟨l.indexOf i, hi'⟩ ⟨l.indexOf j, hj'⟩ h
    rw [List.indexOf_get hi', List.indexOf_get hj'] at hpg
    exact hpg hedge
  · exfalso
    apply hij
    have hgi := List.indexOf_get hi'
    have hgj := List.indexOf_get hj'
    rw [← hgi, ← hgj]
    congr 1
    exact Fin.ext h
  · exact h

/-- C1: on a catalog whose dependency graph, restricted to what the
requested set can reach, is acyclic (and with all referenced ids
present), Resolve succeeds with a sequence containing every transitive
dependency of the requested ids exactly once, each id placed before
every id that depends on it. -/
theorem resolve_acyclic_topo (c : List Software) (requested : List String)
    (hreq : RequestedPresent c requested) (hdeps : DepsPresent c)
    (hacyc : ∀ i, ReachedFrom c requested i → ¬ OnCycle c i) :
    ∃ out, Resolve c requested = .ok out ∧
      (∀ j, j ∈ out ↔ ReachedFrom c requested j) ∧ out.Nodup ∧
      (∀ i j, i ∈ out → DepEdge c i j → out.indexOf j < out.indexOf i) := by
  obtain ⟨cl, hcl, hmem, hnd, hclosed⟩ := computeClosure_spec hreq hdeps
  rcases hkr : kahnAux c [] cl with ⟨order, rem⟩
  have hperm : (order ++ rem).Perm cl := by
    have h := @kahnAux_perm c [] cl
    rw [hkr] at h
    simpa using h
  have hnr : ∀ j ∈ rem, isReady c rem j = false := by
    have h := @kahnAux_snd_not_ready c [] cl
    rw [hkr] at h
    exact h
  have hclmem : ∀ x ∈ rem, x ∈ cl := fun x hx =>
    hperm.subset (List.mem_append.mpr (Or.inr hx))
  have hrem : rem = [] := by
    by_contra hne
    have hstep : ∀ i ∈ rem, ∃ j ∈ rem, DepEdge c i j := by
      intro i hi
      have hpres : (findSoftware c i).isSome = true :=
        reachedFrom_present hreq hdeps ((hmem i).mp (hclmem i hi))
      exact dep_in_remaining_of_not_ready (hnr i hi) hpres
    obtain ⟨i, hirem, hcyc⟩ := exists_onCycle_of_forall_dep hne hstep
    exact hacyc i ((hmem i).mp (hclmem i hirem)) hcyc
  subst hrem
  have hresolve : Resolve c requested = .ok order := by
    simp [Resolve, hcl, hkr]
  have hpermo : order.Perm cl := by simpa using hperm
  have hndo : order.Nodup := hpermo.symm.nodup hnd
  have hpw : order.Pairwise (fun a b => ¬ DepEdge c a b) := by
    have h := @kahnAux_pairwise c [] cl (by simp) (by simp)
    rw [hkr] at h
    exact h
  refine ⟨order, hresolve, ?_, hndo, ?_⟩
  · intro j
    rw [← hmem j]
    exact hpermo.mem_iff
  · intro i j hi hedge
    have hicl : i ∈ cl := hpermo.subset hi
    obtain ⟨sw, hfind, hdep⟩ := hedge
    have hjcl : j ∈ cl := hclosed i hicl sw hfind j hdep
    have hjord : j ∈ order := hpermo.mem_iff.mpr hjcl
    have hij : i ≠ j := by
      rintro rfl
      exact hacyc i ((hmem i).mp hicl) (Relation.TransGen.single ⟨sw, hfind, hdep⟩)
    exact indexOf_lt_of_pairwise_not_dep hndo hpw hi hjord hij ⟨sw, hfind, hdep⟩

/-- Witness for C1 at the concrete chain catalog: requesting a resolves
to an order covering a, b, c with dependencies first. -/
theorem resolve_acyclic_topo_witness :
    ∃ out, Resolve chainCatalog ["a"] = .ok out ∧
      (∀ j, j ∈ out ↔ ReachedFrom chainCatalog ["a"] j) ∧ out.Nodup ∧
      (∀ i j, i ∈ out → DepEdge chainCatalog i j → out.indexOf j < out.indexOf i) := by
  apply resolve_acyclic_topo
  · unfold RequestedPresent
    decide
  · unfold DepsPresent
    decide
  · intro i _
    refine not_onCycle_of_rank
      (fun s => if s = "a" then 2 else if s = "b" then 1 else 0) ?_ i
    intro i j h
    obtain ⟨sw, hsw, hid, hdep⟩ := depEdge_elim h
    simp only [chainCatalog, List.mem_cons, List.not_mem_nil, or_false] at hsw
    rcases hsw with rfl | rfl | rfl <;> simp_all <;> subst hid <;> simp_all

/-- C2: whenever a dependency cycle is reachable from the requested set
(all referenced ids present), Resolve reports a DependencyCycle error
whose participant list contains an id genuinely on a cycle, and the run
aborts with a nonzero exit before any task is started. -/
theorem resolve_cycle_reports_member (c : List Software) (requested : List String)
    (execOutcome : String → Bool)
    (hreq : RequestedPresent c requested) (hdeps : DepsPresent c)
    (hcyc : ∃ i, ReachedFrom c requested i ∧ OnCycle c i) :
    ∃ rem, Resolve c requested = .error (.dependencyCycle rem) ∧
      (∃ i ∈ rem, OnCycle c i) ∧
      RunAll c execOutcome requested = (1, []) := by
  obtain ⟨cl, hcl, hmem, hnd, hclosed⟩ := computeClosure_spec hreq hdeps
  obtain ⟨i0, hi0reach, hi0cyc⟩ := hcyc
  set S : Set String := {x | Reaches c i0 x ∧ Reaches c x i0} with hS
  have hi0S : i0 ∈ S := ⟨Relation.ReflTransGen.refl, Relation.ReflTransGen.refl⟩
  have hstepS : ∀ x ∈ S, ∃ y ∈ S, DepEdge c x y := by
    intro x hx
    obtain ⟨hfwd, hback⟩ := hx
    have htg : Relation.TransGen (DepEdge c) x i0 := by
      rcases Relation.reflTransGen_iff_eq_or_transGen.mp hback with heq | htg
      · subst heq
        exact hi0cyc
      · exact htg
    obtain ⟨y, hedge, hyi0⟩ := Relation.TransGen.head'_iff.mp htg
    exact ⟨y, ⟨Relation.ReflTransGen.tail hfwd hedge, hyi0⟩, hedge⟩
  have hSsub : ∀ x ∈ S, x ∈ cl := by
    intro x hx
    refine (hmem x).mpr ?_
    obtain ⟨r, hr, hri0⟩ := hi0reach
    exact ⟨r, hr, hri0.trans hx.1⟩
  rcases hkr : kahnAux c [] cl with ⟨order, rem⟩
  have hstuck := kahnAux_stuck_set S hstepS [] cl hSsub
  rw [hkr] at hstuck
  have hi0rem : i0 ∈ rem := hstuck i0 hi0S
  obtain ⟨r0, rs, hrem⟩ : ∃ r0 rs, rem = r0 :: rs := by
    cases rem with
    | nil => exact absurd hi0rem (List.not_mem_nil i0)
    | cons r0 rs => exact ⟨r0, rs, rfl⟩
  subst hrem
  have hresolve : Resolve c requested = .error (.dependencyCycle (r0 :: rs)) := by
    simp [Resolve, hcl, hkr]
  refine ⟨r0 :: rs, hresolve, ⟨i0, hi0rem, hi0cyc⟩, ?_⟩
  simp [RunAll, hresolve]

/-- Witness for C2 at the concrete two-node cycle catalog. -/
theorem resolve_cycle_reports_member_witness :
    ∃ rem, Resolve cycleCatalog ["a"] = .error (.dependencyCycle rem) ∧
      (∃ i ∈ rem, OnCycle cycleCatalog i) ∧
      RunAll cycleCatalog (fun _ => true) ["a"] = (1, []) := by
  apply resolve_cycle_reports_member
  · unfold RequestedPresent
    decide
  · unfold DepsPresent
    decide
  · have hab : DepEdge cycleCatalog "a" "b" :=
      ⟨⟨"a", "A", .script, .command "a" "a", ["b"], "ia", "ua", "ra"⟩, by decide, by decide⟩
    have hba : DepEdge cycleCatalog "b" "a" :=
      ⟨⟨"b", "B", .script, .command "b" "b", ["a"], "ib", "ub", "rb"⟩, by decide, by decide⟩
    exact ⟨"a", ⟨"a", List.mem_singleton.mpr rfl, Relation.ReflTransGen.refl⟩,
      Relation.TransGen.head hab (Relation.TransGen.single hba)⟩

/-! ## Theorems: Task Orchestrator cascade -/

/-- One orchestration step records exactly one new task id. -/
theorem runStep_fst_map (c : List Software) (e : String → Bool)
    (st : List (String × TaskState) × List String) (i : String) :
    ((runStep c e st i).1).map Prod.fst = st.1.map Prod.fst ++ [i] := by
  unfold runStep
  split_ifs <;> simp

/-- The state table records exactly the initial ids followed by the
processed order. -/
theorem foldl_fst_map (c : List Software) (e : String → Bool) :
    ∀ (order : List String) (st : List (String × TaskState) × List String),
      ((order.foldl (runStep c e) st).1).map Prod.fst = st.1.map Prod.fst ++ order := by
  intro order
  induction order with
  | nil => intro st; simp
  | cons i rest ih =>
      intro st
      simp only [List.foldl_cons]
      rw [ih, runStep_fst_map]
      simp

/-- A recorded state survives appending further entries. -/
theorem stateOf_append_of_some {tbl l2 : List (String × TaskState)} {j : String}
    {s : TaskState} (h : stateOf tbl j = some s) : stateOf (tbl ++ l2) j = some s := by
  unfold stateOf at h ⊢
  obtain ⟨p, hp, hps⟩ := Option.map_eq_some'.mp h
  rw [List.find?_append, hp]
  simp [hps]

/-- A recorded state survives the rest of the run: entries are only
ever appended and the first match wins. -/
theorem foldl_stateOf_some (c : List Software) (e : String → Bool) :
    ∀ (order : List String) (st : List (String × TaskState) × List String) {j : String}
      {s : TaskState}, stateOf st.1 j = some s →
      stateOf ((order.foldl (runStep c e) st)).1 j = some s := by
  intro order
  induction order with
  | nil => intro st j s h; exact h
  | cons i rest ih =>
      intro st j s h
      simp only [List.foldl_cons]
      apply ih
      unfold runStep
      split_ifs <;> exact stateOf_append_of_some h

/-- Every id recorded in a table has a state. -/
theorem stateOf_some_of_mem_fst {tbl : List (String × TaskState)} {j : String}
    (h : j ∈ tbl.map Prod.fst) : ∃ s, stateOf tbl j = some s := by
  obtain ⟨p, hp, hpj⟩ := List.mem_map.mp h
  cases hfind : tbl.find? (fun q => q.1 = j) with
  | none =>
      exfalso
      have := List.find?_eq_none.mp hfind p hp
      simp [hpj] at this
  | some q => exact ⟨q.2, by simp [stateOf, hfind]⟩

/-- An unrecorded id has no state. -/
theorem stateOf_none_of_not_mem_fst {tbl : List (String × TaskState)} {j : String}
    (h : j ∉ tbl.map Prod.fst) : stateOf tbl j = none := by
  unfold stateOf
  rw [List.find?_eq_none.mpr]
  · rfl
  · intro x hx
    simp only [decide_eq_true_eq]
    intro hxj
    exact h (List.mem_map.mpr ⟨x, hx, hxj⟩)

/-- Appending a fresh entry records its state. -/
theorem stateOf_append_singleton {tbl : List (String × TaskState)} {i : String}
    {s : TaskState} (h : stateOf tbl i = none) :
    stateOf (tbl ++ [(i, s)]) i = some s := by
  unfold stateOf at h ⊢
  rw [List.find?_append]
  have hnone : tbl.find? (fun q => decide (q.1 = i)) = none := by
    cases hf : tbl.find? (fun q => decide (q.1 = i)) with
    | none => rfl
    | some q => rw [hf] at h; simp at h
  rw [hnone]
  simp

/-- Tasks recorded as run come from the initial record or the order. -/
theorem exec_subset (c : List Software) (e : String → Bool) :
    ∀ (order : List String) (st : List (String × TaskState) × List String) (x : String),
      x ∈ (order.foldl (runStep c e) st).2 → x ∈ st.2 ∨ x ∈ order := by
  intro order
  induction order with
  | nil => intro st x h; exact Or.inl h
  | cons i rest ih =>
      intro st x h
      simp only [List.foldl_cons] at h
      rcases ih _ x h with hst | hr
      · unfold runStep at hst
        split_ifs at hst
        · rcases List.mem_append.mp hst with h1 | h1
          · exact Or.inl h1
          · exact Or.inr (List.mem_cons.mpr (Or.inl (List.mem_singleton.mp h1)))
        · rcases List.mem_append.mp hst with h1 | h1
          · exact Or.inl h1
          · exact Or.inr (List.mem_cons.mpr (Or.inl (List.mem_singleton.mp h1)))
        · exact Or.inl hst
      · exact Or.inr (List.mem_cons_of_mem i hr)

/-- The run record only grows. -/
theorem exec_mono (c : List Software) (e : String → Bool) :
    ∀ (order : List String) (st : List (String × TaskState) × List String) (x : String),
      x ∈ st.2 → x ∈ (order.foldl (runStep c e) st).2 := by
  intro order
  induction order with
  | nil => intro st x h; exact h
  | cons i rest ih =>
      intro st x h
      simp only [List.foldl_cons]
      apply ih
      unfold runStep
      split_ifs
      · exact List.mem_append.mpr (Or.inl h)
      · exact List.mem_append.mpr (Or.inl h)
      · exact h

/-- The recorded final state of a task: run (and classified by its
outcome) when every declared dependency's task in the prefix Succeeded,
otherwise Skipped("dependency failed"). -/
theorem runTasks_state_at {c : List Software} {e : String → Bool}
    {pre post : List String} {i : String} (hni : i ∉ pre) :
    stateOf (runTasks c e (pre ++ i :: post)).1 i =
      some (if (((findSoftware c i).map Software.deps).getD []).all
              (fun j => depSucceeded (runTasks c e pre).1 j)
            then (if e i then .succeeded else .failed)
            else .skipped "dependency failed") := by
  unfold runTasks
  rw [List.foldl_append]
  simp only [List.foldl_cons]
  apply foldl_stateOf_some
  have hids : (List.foldl (runStep c e) ([], []) pre).1.map Prod.fst = pre := by
    have := foldl_fst_map c e pre ([], [])
    simpa using this
  have hnone : stateOf (List.foldl (runStep c e) ([], []) pre).1 i = none :=
    stateOf_none_of_not_mem_fst (by rw [hids]; exact hni)
  unfold runStep
  split_ifs <;> exact stateOf_append_singleton hnone

/-- The run record of one step when the dependency check fails. -/
theorem runStep_exec_of_not_ready {c : List Software} {e : String → Bool}
    {st : List (String × TaskState) × List String} {i : String}
    (hc : ¬ ((((findSoftware c i).map Software.deps).getD []).all
      (fun j => depSucceeded st.1 j) = true)) :
    (runStep c e st i).2 = st.2 := by
  unfold runStep
  rw [if_neg hc]

/-- The run record of one step when the dependency check passes. -/
theorem runStep_exec_of_ready {c : List Software} {e : String → Bool}
    {st : List (String × TaskState) × List String} {i : String}
    (hc : (((findSoftware c i).map Software.deps).getD []).all
      (fun j => depSucceeded st.1 j) = true) :
    (runStep c e st i).2 = st.2 ++ [i] := by
  unfold runStep
  rw [if_pos hc]

/-- A task is recorded as run exactly when its dependency check passed. -/
theorem runTasks_executed_at {c : List Software} {e : String → Bool}
    {pre post : List String} {i : String} (hni : i ∉ pre) (hnp : i ∉ post) :
    (i ∈ (runTasks c e (pre ++ i :: post)).2 ↔
      (((findSoftware c i).map Software.deps).getD []).all
        (fun j => depSucceeded (runTasks c e pre).1 j) = true) := by
  unfold runTasks
  rw [List.foldl_append]
  simp only [List.foldl_cons]
  constructor
  · intro hmem
    by_contra hc
    rcases exec_subset c e post _ i hmem with hin | hpost
    · rw [runStep_exec_of_not_ready hc] at hin
      rcases exec_subset c e pre ([], []) i hin with h0 | hpre
      · exact absurd h0 (List.not_mem_nil i)
      · exact hni hpre
    · exact hnp hpost
  · intro hc
    apply exec_mono
    rw [runStep_exec_of_ready hc]
    exact List.mem_append.mpr (Or.inr (List.mem_singleton.mpr rfl))

/-- The position of the marked element in a split list. -/
theorem indexOf_append_cons (pre post : List String) (a : String) (h : a ∉ pre) :
    (pre ++ a :: post).indexOf a = pre.length := by
  induction pre with
  | nil => simp
  | cons p ps ih =>
      have hpa : p ≠ a := by
        rintro rfl
        exact h (List.mem_cons_self p ps)
      have h' : a ∉ ps := fun hm => h (List.mem_cons_of_mem p hm)
      rw [List.cons_append, List.indexOf_cons_ne _ hpa, ih h']
      simp

/-- An element placed before the split point lies in the prefix. -/
theorem mem_prefix_of_indexOf_lt :
    ∀ (pre rest : List String) (w : String), w ∈ pre ++ rest →
      (pre ++ rest).indexOf w < pre.length → w ∈ pre := by
  intro pre
  induction pre with
  | nil =>
      intro rest w _ h
      simp at h
  | cons p ps ih =>
      intro rest w hmem hidx
      by_cases hwp : w = p
      · exact hwp ▸ List.mem_cons_self p ps
      · have hpw : p ≠ w := fun h => hwp h.symm
        rw [List.cons_append, List.indexOf_cons_ne _ hpw, List.length_cons] at hidx
        have hmem' : w ∈ ps ++ rest := by
          rcases (show w = p ∨ w ∈ ps ∨ w ∈ rest by simpa using hmem) with h | h | h
          · exact absurd h hwp
          · exact List.mem_append.mpr (Or.inl h)
          · exact List.mem_append.mpr (Or.inr h)
        exact List.mem_cons_of_mem p (ih rest w hmem' (Nat.lt_of_succ_lt_succ hidx))

/-- A task one of whose dependencies finished in a non-Succeeded state
is marked Skipped("dependency failed") and is never run. -/
theorem runTasks_skip_of_bad_dep {c : List Software} {e : String → Bool}
    {order : List String} (hnd : order.Nodup)
    (htopo : ∀ i ∈ order, ∀ j, DepEdge c i j → order.indexOf j < order.indexOf i)
    {a w : String} (ha : a ∈ order) (hedge : DepEdge c a w) (hw : w ∈ order)
    {s : TaskState} (hws : stateOf (runTasks c e order).1 w = some s)
    (hbad : s ≠ .succeeded) :
    stateOf (runTasks c e order).1 a = some (.skipped "dependency failed") ∧
      a ∉ (runTasks c e order).2 := by
  have hwidx := htopo a ha w hedge
  obtain ⟨pre, post, rfl⟩ := List.append_of_mem ha
  have hndparts := List.nodup_append.mp hnd
  have hna_pre : a ∉ pre := fun hm => hndparts.2.2 hm (List.mem_cons_self a post)
  have hna_post : a ∉ post := (List.nodup_cons.mp hndparts.2.1).1
  have hwpre : w ∈ pre := by
    apply mem_prefix_of_indexOf_lt pre (a :: post) w hw
    calc (pre ++ a :: post).indexOf w
        < (pre ++ a :: post).indexOf a := hwidx
      _ = pre.length := indexOf_append_cons pre post a hna_pre
  have hwids : w ∈ (runTasks c e pre).1.map Prod.fst := by
    have hids : (runTasks c e pre).1.map Prod.fst = pre := by
      have := foldl_fst_map c e pre ([], [])
      simpa [runTasks] using this
    rw [hids]
    exact hwpre
  obtain ⟨s', hs'⟩ := stateOf_some_of_mem_fst hwids
  have hfinal : stateOf (runTasks c e (pre ++ a :: post)).1 w = some s' := by
    unfold runTasks
    rw [List.foldl_append]
    simp only [List.foldl_cons]
    apply foldl_stateOf_some
    unfold runTasks at hs'
    unfold runStep
    split_ifs <;> exact stateOf_append_of_some hs'
  have hss : s' = s := by
    rw [hfinal] at hws
    exact Option.some_injective _ hws
  subst hss
  obtain ⟨sw, hfind, hdep⟩ := hedge
  have hdepfail : (((findSoftware c a).map Software.deps).getD []).all
      (fun j => depSucceeded (runTasks c e pre).1 j) = false := by
    apply List.all_eq_false.mpr
    refine ⟨w, ?_, ?_⟩
    · rw [hfind]
      simpa using hdep
    · unfold depSucceeded
      unfold stateOf at hs'
      obtain ⟨p, hp, hps⟩ := Option.map_eq_some'.mp hs'
      rw [hp]
      simp [hps, hbad]
  constructor
  · rw [runTasks_state_at hna_pre]
    simp [hdepfail]
  · rw [runTasks_executed_at hna_pre hna_post]
    simp [hdepfail]

/-- C3: if a task T ends Failed, then every task in the resolved order
whose dependency chain includes T is marked Skipped("dependency failed")
and is never run, transitively through the order. The order is assumed
duplicate-free, dependency-closed and topologically sorted — the shape
Resolve guarantees. -/
theorem failed_dependency_cascades (c : List Software) (e : String → Bool)
    (order : List String) (hnd : order.Nodup)
    (hclosed : ∀ i ∈ order, ∀ j, DepEdge c i j → j ∈ order)
    (htopo : ∀ i ∈ order, ∀ j, DepEdge c i j → order.indexOf j < order.indexOf i)
    (T U : String) (hU : U ∈ order)
    (hchain : Relation.TransGen (DepEdge c) U T)
    (hT : stateOf (runTasks c e order).1 T = some .failed) :
    stateOf (runTasks c e order).1 U = some (.skipped "dependency failed") ∧
      U ∉ (runTasks c e order).2 := by
  revert hU
  induction hchain using Relation.TransGen.head_induction_on with
  | base hedge =>
      intro ha
      exact runTasks_skip_of_bad_dep hnd htopo ha hedge
        (hclosed _ ha _ hedge) hT (by simp)
  | ih hedge htg ihw =>
      intro ha
      rename_i a w
      have hw : w ∈ order := hclosed a ha w hedge
      obtain ⟨hws, _⟩ := ihw hw
      exact runTasks_skip_of_bad_dep hnd htopo ha hedge hw hws (by simp)

/-- Witness for C3: with y depending on x and x's execution failing, y
is skipped with reason "dependency failed" and never run. -/
theorem failed_dependency_cascades_witness :
    stateOf (runTasks cascadeCatalog (fun _ => false) ["x", "y"]).1 "y"
        = some (.skipped "dependency failed") ∧
      "y" ∉ (runTasks cascadeCatalog (fun _ => false) ["x", "y"]).2 := by
  have hedge : DepEdge cascadeCatalog "y" "x" :=
    ⟨⟨"y", "Y", .script, .command "y" "y", ["x"], "iy", "uy", "ry"⟩, by decide, by decide⟩
  refine failed_dependency_cascades cascadeCatalog (fun _ => false) ["x", "y"]
    (by decide) ?_ ?_ "x" "y" (by decide) (Relation.TransGen.single hedge) (by decide)
  · intro i hi j hj
    obtain ⟨sw, hsw, hid, hdep⟩ := depEdge_elim hj
    simp only [cascadeCatalog, List.mem_cons, List.not_mem_nil, or_false] at hsw
    rcases hsw with rfl | rfl <;> simp_all
  · intro i hi j hj
    obtain ⟨sw, hsw, hid, hdep⟩ := depEdge_elim hj
    simp only [cascadeCatalog, List.mem_cons, List.not_mem_nil, or_false] at hsw
    rcases hsw with rfl | rfl
    · simp_all
    · subst hid
      simp only [List.mem_singleton] at hdep
      subst hdep
      decide

end Maziq
